import Mathlib

/-!
Shallow embedding of the ant-colony bin-packing solver `UNO_OPTIMO` from
`src/aco.py`.  Numbers are exact rationals; Python's ambient random source
(`random.random()` values in `[0,1)` consumed by `random.choices`) is made
explicit as a stream `rng : ℕ → ℚ` together with a cursor that advances by
one exactly when `random.choices` is called.  `random.choices` itself draws
with `bisect.bisect(cum_weights, random()*total, 0, hi)` with `hi = n - 1`;
`chooseIndex` below reproduces that: the first index whose cumulative weight
strictly exceeds the sample, clamped to the last index.
-/

namespace Aco

/-- A shipment record: `{"awb": ..., "capacity": ...}`. -/
structure Shipment where
  awb : ℕ
  capacity : ℚ
deriving DecidableEq

/-- A vehicle record: `{"id": ..., "capacity": ...}`. -/
structure Vehicle where
  id : ℕ
  capacity : ℚ
deriving DecidableEq

/-- A vehicle load as built by `construct_solution`:
`{'id': ..., 'capacity': ..., 'shipments': [...]}`. -/
structure Load where
  id : ℕ
  capacity : ℚ
  shipments : List Shipment
deriving DecidableEq

instance : Inhabited Load := ⟨⟨0, 0, []⟩⟩

/-- `sum(s["capacity"] for s in vehicle["shipments"])` (aco.py line 55). -/
def usedCapacity (v : Load) : ℚ := (v.shipments.map Shipment.capacity).sum

/-- `initialize_pheromones` (aco.py line 46-47): a `V×V` matrix of `1.0`. -/
def initialize_pheromones (num_vehicles : ℕ) : List (List ℚ) :=
  List.replicate num_vehicles (List.replicate num_vehicles (1 : ℚ))

/-- The diagonal read `pheromones[i][i]` (aco.py line 60). -/
def diag (pheromones : List (List ℚ)) (i : ℕ) : ℚ :=
  (pheromones.getD i []).getD i 0

/-- The weight assigned to vehicle `i` in `place_shipment`'s probability
array (aco.py lines 54-63): zero when the shipment does not fit, otherwise
`pheromones[i][i]^alpha * ((used + demand)/capacity)^beta`. -/
def probOf (alpha beta : ℕ) (shipment : Shipment) (vehicle_loads : List Load)
    (pheromones : List (List ℚ)) (i : ℕ) : ℚ :=
  let vehicle := vehicle_loads.getD i default
  let used_capacity := usedCapacity vehicle
  let remaining_capacity := vehicle.capacity - used_capacity
  if shipment.capacity ≤ remaining_capacity then
    let heuristic_val := (used_capacity + shipment.capacity) / vehicle.capacity
    let pheromone_val := diag pheromones i
    pheromone_val ^ alpha * heuristic_val ^ beta
  else 0

/-- The full probability array of `place_shipment` (aco.py lines 51-63). -/
def probabilities (alpha beta : ℕ) (shipment : Shipment) (vehicle_loads : List Load)
    (pheromones : List (List ℚ)) : List ℚ :=
  (List.range vehicle_loads.length).map (probOf alpha beta shipment vehicle_loads pheromones)

/-- Running cumulative sums, as `itertools.accumulate` inside
`random.choices`. -/
def cumWeights : ℚ → List ℚ → List ℚ
  | _, [] => []
  | acc, w :: ws => (acc + w) :: cumWeights (acc + w) ws

/-- `bisect.bisect_right`: index of the first entry strictly greater than
`x`, or the list length when there is none. -/
def bisectIdx : List ℚ → ℚ → ℕ
  | [], _ => 0
  | c :: cs, x => if x < c then 0 else bisectIdx cs x + 1

/-- The index drawn by `random.choices(range(n), weights, k=1)[0]` for a
sample `x = random() * total`: CPython bisects the cumulative weights with
`hi = n - 1`, i.e. over all but the last cumulative entry, so the result is
clamped to `n - 1`. -/
def chooseIndex (weights : List ℚ) (x : ℚ) : ℕ :=
  bisectIdx (cumWeights 0 weights).dropLast x

/-- `vehicle_loads[chosen]['shipments'].append(shipment)` (aco.py line 71). -/
def appendAt : List Load → ℕ → Shipment → List Load
  | [], _, _ => []
  | v :: vs, 0, s => { v with shipments := v.shipments ++ [s] } :: vs
  | v :: vs, k + 1, s => v :: appendAt vs k s

/-- `place_shipment` (aco.py lines 49-72).  Returns `none` for the
`total == 0` early exit (no random draw happens there), otherwise the loads
with the shipment appended at the drawn index; `r` is the `random.random()`
value consumed by `random.choices`. -/
def place_shipment (alpha beta : ℕ) (shipment : Shipment) (vehicle_loads : List Load)
    (pheromones : List (List ℚ)) (r : ℚ) : Option (List Load) :=
  let probs := probabilities alpha beta shipment vehicle_loads pheromones
  let total := probs.sum
  if total = 0 then none
  else
    let normed := probs.map (· / total)
    let chosen_vehicle_index := chooseIndex normed (r * normed.sum)
    some (appendAt vehicle_loads chosen_vehicle_index shipment)

/-- `bool(vehicle['shipments'])`: the load carries at least one shipment. -/
def nonEmptyLoad (v : Load) : Bool := !v.shipments.isEmpty

/-- `evaluate_solution` (aco.py lines 74-81): vehicles used and total
remaining capacity over non-empty vehicles. -/
def evaluate_solution (vehicle_loads : List Load) : ℕ × ℚ :=
  (vehicle_loads.countP nonEmptyLoad,
   ((vehicle_loads.filter nonEmptyLoad).map (fun v => v.capacity - usedCapacity v)).sum)

/-- The shipment loop of `construct_solution` (aco.py lines 87-90), threading
(loads, skipped, rng cursor). -/
def constructAux (alpha beta : ℕ) (pheromones : List (List ℚ)) (rng : ℕ → ℚ) :
    List Shipment → List Load × List Shipment × ℕ → List Load × List Shipment × ℕ
  | [], acc => acc
  | s :: rest, (vehicle_loads, skipped, idx) =>
    match place_shipment alpha beta s vehicle_loads pheromones (rng idx) with
    | none => constructAux alpha beta pheromones rng rest (vehicle_loads, skipped ++ [s], idx)
    | some loads' => constructAux alpha beta pheromones rng rest (loads', skipped, idx + 1)

/-- `construct_solution` (aco.py lines 83-92): fresh empty loads from
`vehicle_data`, then place every shipment in input order. -/
def construct_solution (shipment_data : List Shipment) (vehicle_data : List Vehicle)
    (alpha beta : ℕ) (pheromones : List (List ℚ)) (rng : ℕ → ℚ) (idx : ℕ) :
    List Load × List Shipment × ℕ :=
  constructAux alpha beta pheromones rng shipment_data
    (vehicle_data.map (fun v => Load.mk v.id v.capacity []), [], idx)

/-- `sum(1 for vehicle in vehicle_loads if vehicle['shipments'])`
(aco.py line 106). -/
def vehiclesUsed (vehicle_loads : List Load) : ℕ := vehicle_loads.countP nonEmptyLoad

/-- The per-round best tracked by `solve`: solution, its skipped shipments
and its vehicles-used count, all set together (aco.py lines 107-110);
`none` models the initial `None` / `float("inf")` sentinels. -/
abbrev IterBest := List Load × List Shipment × ℕ

/-- `vehicles_used < iteration_best_vehicles_used` (aco.py line 107);
any finite count beats the `float("inf")` sentinel. -/
def betterThanIter (vehicles_used : ℕ) : Option IterBest → Prop
  | none => True
  | some t => vehicles_used < t.2.2

instance : ∀ (u : ℕ) (ib : Option IterBest), Decidable (betterThanIter u ib)
  | _, none => .isTrue trivial
  | u, some t => inferInstanceAs (Decidable (u < t.2.2))

/-- `iteration_skipped_shipments`: initialized `[]`, overwritten only
together with the round best (aco.py lines 101, 110). -/
def iterationSkipped : Option IterBest → List Shipment
  | none => []
  | some t => t.2.1

/-- The ant loop of one round (aco.py lines 103-110), threading the round
best, the raw `vehicle_loads` of the most recent ant, and the rng cursor. -/
def antLoop (shipment_data : List Shipment) (vehicle_data : List Vehicle)
    (alpha beta : ℕ) (pheromones : List (List ℚ)) (rng : ℕ → ℚ) :
    ℕ → Option IterBest × List Load × ℕ → Option IterBest × List Load × ℕ
  | 0, acc => acc
  | n + 1, (iteration_best, _, idx) =>
    let c := construct_solution shipment_data vehicle_data alpha beta pheromones rng idx
    let vehicles_used := vehiclesUsed c.1
    let iteration_best' :=
      if betterThanIter vehicles_used iteration_best then
        some (c.1, c.2.1, vehicles_used)
      else iteration_best
    antLoop shipment_data vehicle_data alpha beta pheromones rng n (iteration_best', c.1, c.2.2)

/-- Python tuple comparison `current_evaluation < self.best_evaluation`
(aco.py line 113): lexicographic; `none` is the `(inf, inf)` sentinel that
every finite score beats. -/
def scoreLt (current : ℕ × ℚ) : Option (ℕ × ℚ) → Prop
  | none => True
  | some best => current.1 < best.1 ∨ (current.1 = best.1 ∧ current.2 < best.2)

instance : ∀ (c : ℕ × ℚ) (ob : Option (ℕ × ℚ)), Decidable (scoreLt c ob)
  | _, none => .isTrue trivial
  | c, some b => inferInstanceAs (Decidable (c.1 < b.1 ∨ (c.1 = b.1 ∧ c.2 < b.2)))

/-- `1.0 / iteration_best_vehicles_used` (aco.py line 124); `0` stands for
the branch-unreachable `none` sentinel case. -/
def reinforcementAmount : Option IterBest → ℚ
  | none => 0
  | some t => 1 / (t.2.2 : ℚ)

/-- The reinforcement guard (aco.py lines 122-123):
`iteration_best_solution and i < len(iteration_best_solution) and
iteration_best_solution[i]['shipments']`. -/
def rowReinforced (ib : Option IterBest) (i : ℕ) : Prop :=
  match ib with
  | none => False
  | some t => i < t.1.length ∧ nonEmptyLoad (t.1.getD i default) = true

instance : ∀ (ib : Option IterBest) (i : ℕ), Decidable (rowReinforced ib i)
  | none, _ => .isFalse id
  | some t, i => inferInstanceAs (Decidable (i < t.1.length ∧ nonEmptyLoad (t.1.getD i default) = true))

/-- One row of the pheromone update (aco.py lines 120-124): every cell is
decayed, and the whole row receives the reinforcement when its guard holds. -/
def updateRow (decay amt : ℚ) (g : Bool) (row : List ℚ) : List ℚ :=
  row.map (fun p => p * (1 - decay) + if g then amt else 0)

/-- The double loop of the pheromone update (aco.py lines 119-124), with
`i` the index of the first row of the argument matrix. -/
def updateMatrix (decay amt : ℚ) (g : ℕ → Bool) : ℕ → List (List ℚ) → List (List ℚ)
  | _, [] => []
  | i, row :: rest => updateRow decay amt (g i) row :: updateMatrix decay amt g (i + 1) rest

/-- The `UNO_OPTIMO` configuration (aco.py lines 32-43). -/
structure UnoOptimo where
  num_ants : ℕ
  num_iterations : ℕ
  decay : ℚ
  alpha : ℕ
  beta : ℕ
  shipment_data : List Shipment
  vehicle_data : List Vehicle
deriving DecidableEq

/-- The mutable solver state: pheromones plus the Best-So-Far Record
(`best_solution`, `best_evaluation`, `skipped_shipments`) and the rng
cursor; `none` models the `None` / `(inf, inf)` initial sentinels. -/
structure SolveState where
  pheromones : List (List ℚ)
  best_solution : Option (List Load)
  best_evaluation : Option (ℕ × ℚ)
  skipped_shipments : List Shipment
  rngIdx : ℕ
deriving DecidableEq

/-- The ant phase of one round of `solve` (aco.py lines 99-110). -/
def antPhase (p : UnoOptimo) (rng : ℕ → ℚ) (st : SolveState) :
    Option IterBest × List Load × ℕ :=
  antLoop p.shipment_data p.vehicle_data p.alpha p.beta st.pheromones rng p.num_ants
    (none, [], st.rngIdx)

/-- One round of `solve` (aco.py lines 98-124): run the ants, evaluate the
LAST ant's raw `vehicle_loads` (line 112), conditionally replace the
best-so-far record — pairing the last ant's loads with the ROUND BEST's
skipped list (lines 115-116) — then decay and reinforce the pheromones. -/
def roundStep (p : UnoOptimo) (rng : ℕ → ℚ) (st : SolveState) : SolveState :=
  let res := antPhase p rng st
  let iteration_best := res.1
  let vehicle_loads := res.2.1
  let current_evaluation := evaluate_solution vehicle_loads
  { pheromones :=
      updateMatrix p.decay (reinforcementAmount iteration_best)
        (fun i => decide (rowReinforced iteration_best i)) 0 st.pheromones,
    best_solution :=
      if scoreLt current_evaluation st.best_evaluation then some vehicle_loads
      else st.best_solution,
    best_evaluation :=
      if scoreLt current_evaluation st.best_evaluation then some current_evaluation
      else st.best_evaluation,
    skipped_shipments :=
      if scoreLt current_evaluation st.best_evaluation then iterationSkipped iteration_best
      else st.skipped_shipments,
    rngIdx := res.2.2 }

/-- The iteration loop of `solve` (aco.py line 98). -/
def solveAux (p : UnoOptimo) (rng : ℕ → ℚ) : ℕ → SolveState → SolveState
  | 0, st => st
  | n + 1, st => solveAux p rng n (roundStep p rng st)

/-- The state at entry to `solve` (aco.py lines 40-43, 95-96). -/
def initState (p : UnoOptimo) : SolveState :=
  { pheromones := initialize_pheromones p.vehicle_data.length,
    best_solution := none,
    best_evaluation := none,
    skipped_shipments := [],
    rngIdx := 0 }

/-- `solve` (aco.py lines 94-124). -/
def solve (p : UnoOptimo) (rng : ℕ → ℚ) : SolveState :=
  solveAux p rng p.num_iterations (initState p)

/-! ### Properties of the weighted draw -/

theorem bisect_cum_lt_length : ∀ (ws : List ℚ) (acc x : ℚ), ws ≠ [] → x < acc + ws.sum →
    bisectIdx (cumWeights acc ws) x < ws.length := by
  intro ws
  induction ws with
  | nil => intro acc x h _; exact absurd rfl h
  | cons w ws ih =>
    intro acc x _ hx
    simp only [cumWeights, bisectIdx]
    by_cases h : x < acc + w
    · simp [h]
    · rw [if_neg h]
      cases ws with
      | nil =>
        exfalso
        apply h
        simpa using hx
      | cons w2 ws2 =>
        have h2 : x < (acc + w) + (w2 :: ws2).sum := by
          rw [List.sum_cons] at hx
          linarith
        have := ih (acc + w) x (by simp) h2
        simpa using Nat.succ_lt_succ this

theorem bisect_cum_getD_pos : ∀ (ws : List ℚ) (acc x : ℚ), acc ≤ x → x < acc + ws.sum →
    0 < ws.getD (bisectIdx (cumWeights acc ws) x) 0 := by
  intro ws
  induction ws with
  | nil => intro acc x h0 hx; simp at hx; linarith
  | cons w ws ih =>
    intro acc x h0 hx
    simp only [cumWeights, bisectIdx]
    by_cases h : x < acc + w
    · rw [if_pos h, List.getD_cons_zero]; linarith
    · rw [if_neg h, List.getD_cons_succ]
      have hx2 : x < (acc + w) + ws.sum := by
        rw [List.sum_cons] at hx
        linarith
      exact ih (acc + w) x (le_of_not_lt h) hx2

theorem bisect_dropLast_cum : ∀ (ws : List ℚ) (acc x : ℚ), x < acc + ws.sum →
    bisectIdx (cumWeights acc ws).dropLast x = bisectIdx (cumWeights acc ws) x := by
  intro ws
  induction ws with
  | nil => intro acc x _; rfl
  | cons w ws ih =>
    intro acc x hx
    cases ws with
    | nil =>
      have h : x < acc + w := by simpa using hx
      simp [cumWeights, bisectIdx, h]
    | cons w2 ws2 =>
      have hx2 : x < (acc + w) + (w2 :: ws2).sum := by
        rw [List.sum_cons] at hx
        linarith
      simp only [cumWeights, List.dropLast, bisectIdx]
      by_cases h : x < acc + w
      · simp [h]
      · rw [if_neg h, if_neg h]
        have := ih (acc + w) x hx2
        simp only [cumWeights] at this
        rw [this]
        simp only [bisectIdx]

/-- The index drawn by `random.choices` from weights summing above the
sample is in range and has strictly positive weight: a zero-weight entry is
never selected. -/
theorem chooseIndex_spec (ws : List ℚ) (x : ℚ) (h0 : 0 ≤ x) (h1 : x < ws.sum) :
    chooseIndex ws x < ws.length ∧ 0 < ws.getD (chooseIndex ws x) 0 := by
  have hne : ws ≠ [] := by
    rintro rfl
    simp at h1
    linarith
  have hx : x < 0 + ws.sum := by linarith
  unfold chooseIndex
  rw [bisect_dropLast_cum ws 0 x hx]
  exact ⟨bisect_cum_lt_length ws 0 x hne hx, bisect_cum_getD_pos ws 0 x h0 hx⟩

theorem sum_map_div (l : List ℚ) (c : ℚ) : (l.map (· / c)).sum = l.sum / c := by
  induction l with
  | nil => simp
  | cons a l ih => simp [ih, add_div]

/-! ### Properties of `place_shipment` -/

/-- A nonzero weight certifies that the shipment fits the vehicle: the
infeasible branch of `probOf` is the constant `0`. -/
theorem probOf_feasible {alpha beta : ℕ} {s : Shipment} {loads : List Load}
    {pher : List (List ℚ)} {k : ℕ} (h : probOf alpha beta s loads pher k ≠ 0) :
    s.capacity ≤ (loads.getD k default).capacity - usedCapacity (loads.getD k default) := by
  by_contra hc
  apply h
  simp only [probOf]
  rw [if_neg hc]

theorem probabilities_length (alpha beta : ℕ) (s : Shipment) (loads : List Load)
    (pher : List (List ℚ)) :
    (probabilities alpha beta s loads pher).length = loads.length := by
  simp [probabilities]

theorem probabilities_getD {alpha beta : ℕ} {s : Shipment} {loads : List Load}
    {pher : List (List ℚ)} {k : ℕ} (hk : k < loads.length) :
    (probabilities alpha beta s loads pher).getD k 0 = probOf alpha beta s loads pher k := by
  have hk' : k < (probabilities alpha beta s loads pher).length := by
    rwa [probabilities_length]
  rw [List.getD_eq_getElem _ _ hk']
  simp [probabilities]

/-- Inverting a successful `place_shipment`: it appended the shipment at an
index whose weight was nonzero (hence, by `probOf_feasible`, feasible),
provided the random sample came from `[0,1)` as `random.random()` does. -/
theorem place_shipment_some {alpha beta : ℕ} {s : Shipment} {loads : List Load}
    {pher : List (List ℚ)} {r : ℚ} {loads' : List Load}
    (h0 : 0 ≤ r) (h1 : r < 1)
    (h : place_shipment alpha beta s loads pher r = some loads') :
    ∃ k, k < loads.length ∧ probOf alpha beta s loads pher k ≠ 0 ∧
      loads' = appendAt loads k s := by
  by_cases ht : (probabilities alpha beta s loads pher).sum = 0
  · simp [place_shipment, ht] at h
  · simp only [place_shipment, if_neg ht, Option.some.injEq] at h
    set probs := probabilities alpha beta s loads pher with hprobs
    set normed := probs.map (· / probs.sum) with hnormed
    have hsum : normed.sum = 1 := by
      rw [hnormed, sum_map_div, div_self ht]
    have hx0 : 0 ≤ r * normed.sum := by rw [hsum]; linarith
    have hx1 : r * normed.sum < normed.sum := by rw [hsum]; linarith
    obtain ⟨hlt, hpos⟩ := chooseIndex_spec normed (r * normed.sum) hx0 hx1
    have hlen : normed.length = loads.length := by
      rw [hnormed, List.length_map, hprobs, probabilities_length]
    refine ⟨chooseIndex normed (r * normed.sum), hlen ▸ hlt, ?_, h.symm⟩
    intro hz
    have hklt : chooseIndex normed (r * normed.sum) < probs.length := by
      rw [hprobs, probabilities_length]; exact hlen ▸ hlt
    have : normed.getD (chooseIndex normed (r * normed.sum)) 0 =
        probOf alpha beta s loads pher (chooseIndex normed (r * normed.sum)) / probs.sum := by
      rw [hnormed, List.getD_eq_getElem _ _ (by simpa using hklt), List.getElem_map,
        ← List.getD_eq_getElem probs 0 hklt, hprobs,
        probabilities_getD (hlen ▸ hlt)]
    rw [this, hz, zero_div] at hpos
    exact lt_irrefl 0 hpos

/-! ### Structural lemmas about `appendAt` and construction invariants -/

theorem usedCapacity_append (v : Load) (s : Shipment) :
    usedCapacity { v with shipments := v.shipments ++ [s] } = usedCapacity v + s.capacity := by
  simp [usedCapacity]

/-- Every member of `appendAt loads k s` is either an untouched original
load or the load at index `k` with `s` appended. -/
theorem mem_appendAt : ∀ {loads : List Load} {k : ℕ} {s : Shipment} {v' : Load},
    v' ∈ appendAt loads k s →
    v' ∈ loads ∨ (k < loads.length ∧
      v' = { loads.getD k default with
             shipments := (loads.getD k default).shipments ++ [s] }) := by
  intro loads
  induction loads with
  | nil => intro k s v' h; simp [appendAt] at h
  | cons v vs ih =>
    intro k s v' h
    cases k with
    | zero =>
      rcases List.mem_cons.mp h with h1 | h1
      · exact Or.inr ⟨Nat.succ_pos _, by simpa using h1⟩
      · exact Or.inl (List.mem_cons_of_mem _ h1)
    | succ k =>
      rcases List.mem_cons.mp h with h1 | h1
      · exact Or.inl (h1 ▸ List.mem_cons_self _ _)
      · rcases ih h1 with h2 | ⟨hk, h2⟩
        · exact Or.inl (List.mem_cons_of_mem _ h2)
        · exact Or.inr ⟨Nat.succ_lt_succ hk, by simpa using h2⟩

theorem appendAt_loadsOk {loads : List Load} {k : ℕ} {s : Shipment}
    (hall : ∀ v ∈ loads, usedCapacity v ≤ v.capacity)
    (hfit : s.capacity ≤ (loads.getD k default).capacity - usedCapacity (loads.getD k default)) :
    ∀ v ∈ appendAt loads k s, usedCapacity v ≤ v.capacity := by
  intro v' hv'
  rcases mem_appendAt hv' with h | ⟨hk, rfl⟩
  · exact hall _ h
  · rw [usedCapacity_append]
    have hmem : loads.getD k default ∈ loads := by
      rw [List.getD_eq_getElem _ _ hk]
      exact List.getElem_mem hk
    have := hall _ hmem
    simp only
    linarith

/-- If the loads already satisfy the capacity invariant and the random
samples stay in `[0,1)`, the invariant survives the whole shipment loop of
`construct_solution`. -/
theorem constructAux_loadsOk {alpha beta : ℕ} {pher : List (List ℚ)} {rng : ℕ → ℚ}
    (hr : ∀ k, 0 ≤ rng k ∧ rng k < 1) :
    ∀ (rest : List Shipment) (acc : List Load × List Shipment × ℕ),
      (∀ v ∈ acc.1, usedCapacity v ≤ v.capacity) →
      ∀ v ∈ (constructAux alpha beta pher rng rest acc).1, usedCapacity v ≤ v.capacity := by
  intro rest
  induction rest with
  | nil => intro acc h; exact h
  | cons s rest ih =>
    intro acc h
    obtain ⟨loads, skipped, idx⟩ := acc
    simp only [constructAux]
    cases hplace : place_shipment alpha beta s loads pher (rng idx) with
    | none => exact ih _ h
    | some loads' =>
      apply ih
      obtain ⟨k, _, hne, rfl⟩ := place_shipment_some (hr idx).1 (hr idx).2 hplace
      exact appendAt_loadsOk h (probOf_feasible hne)

theorem construct_solution_loadsOk {sd : List Shipment} {vd : List Vehicle}
    {alpha beta : ℕ} {pher : List (List ℚ)} {rng : ℕ → ℚ}
    (hv : ∀ v ∈ vd, 0 ≤ v.capacity)
    (hr : ∀ k, 0 ≤ rng k ∧ rng k < 1) (idx : ℕ) :
    ∀ v ∈ (construct_solution sd vd alpha beta pher rng idx).1,
      usedCapacity v ≤ v.capacity := by
  apply constructAux_loadsOk hr
  intro v hv'
  simp only [List.mem_map] at hv'
  obtain ⟨w, hw, rfl⟩ := hv'
  simpa [usedCapacity] using hv w hw

/-! ### Generic invariants of the ant loop and the round loop -/

/-- Whatever holds of every construction output and of the seed round-best
holds of the final round-best: it is set only to construction outputs,
together with its exact `vehiclesUsed` count. -/
theorem antLoop_fst {sd : List Shipment} {vd : List Vehicle} {alpha beta : ℕ}
    {pher : List (List ℚ)} {rng : ℕ → ℚ} (Q : List Load → List Shipment → Prop)
    (hQ : ∀ idx, Q (construct_solution sd vd alpha beta pher rng idx).1
      (construct_solution sd vd alpha beta pher rng idx).2.1) :
    ∀ (n : ℕ) (acc : Option IterBest × List Load × ℕ),
      (∀ sol sk m, acc.1 = some (sol, sk, m) → m = vehiclesUsed sol ∧ Q sol sk) →
      ∀ sol sk m, (antLoop sd vd alpha beta pher rng n acc).1 = some (sol, sk, m) →
        m = vehiclesUsed sol ∧ Q sol sk := by
  intro n
  induction n with
  | zero => intro acc h; exact h
  | succ n ih =>
    intro acc h
    obtain ⟨ib, last, idx⟩ := acc
    simp only [antLoop]
    apply ih
    by_cases hb : betterThanIter
        (vehiclesUsed (construct_solution sd vd alpha beta pher rng idx).1) ib
    · rw [if_pos hb]
      intro sol sk m hm
      simp only [Option.some.injEq, Prod.mk.injEq] at hm
      obtain ⟨rfl, rfl, rfl⟩ := hm
      exact ⟨rfl, hQ idx⟩
    · rw [if_neg hb]
      exact h

/-- Whatever holds of every construction output and of the seed last-ant
loads holds of the final last-ant loads. -/
theorem antLoop_snd {sd : List Shipment} {vd : List Vehicle} {alpha beta : ℕ}
    {pher : List (List ℚ)} {rng : ℕ → ℚ} (R : List Load → Prop)
    (hR : ∀ idx, R (construct_solution sd vd alpha beta pher rng idx).1) :
    ∀ (n : ℕ) (acc : Option IterBest × List Load × ℕ),
      R acc.2.1 → R (antLoop sd vd alpha beta pher rng n acc).2.1 := by
  intro n
  induction n with
  | zero => intro acc h; exact h
  | succ n ih =>
    intro acc _
    obtain ⟨ib, last, idx⟩ := acc
    simp only [antLoop]
    exact ih _ (hR idx)

theorem solveAux_zero (p : UnoOptimo) (rng : ℕ → ℚ) (st : SolveState) :
    solveAux p rng 0 st = st := by
  simp only [solveAux]

theorem solveAux_succ (p : UnoOptimo) (rng : ℕ → ℚ) (n : ℕ) (st : SolveState) :
    solveAux p rng (n + 1) st = solveAux p rng n (roundStep p rng st) := by
  simp only [solveAux]

theorem solveAux_inv {p : UnoOptimo} {rng : ℕ → ℚ} (Inv : SolveState → Prop)
    (hstep : ∀ st, Inv st → Inv (roundStep p rng st)) :
    ∀ (n : ℕ) (st : SolveState), Inv st → Inv (solveAux p rng n st) := by
  intro n
  induction n with
  | zero => intro st h; rw [solveAux_zero]; exact h
  | succ n ih => intro st h; rw [solveAux_succ]; exact ih _ (hstep _ h)

theorem solveAux_roundStep_comm (p : UnoOptimo) (rng : ℕ → ℚ) :
    ∀ (n : ℕ) (st : SolveState),
      solveAux p rng n (roundStep p rng st) = roundStep p rng (solveAux p rng n st) := by
  intro n
  induction n with
  | zero => intro st; rw [solveAux_zero, solveAux_zero]
  | succ n ih => intro st; rw [solveAux_succ, solveAux_succ, ih (roundStep p rng st)]

/-! ### The oversized-shipment argument -/

/-- Invariant carried through a construction when a shipment `s0` is larger
than every vehicle: each load is a vehicle too small for `s0`, carries only
nonnegative demands, and does not carry `s0`. -/
def BigOk (s0 : Shipment) (loads : List Load) : Prop :=
  ∀ v ∈ loads, v.capacity < s0.capacity ∧ (∀ t ∈ v.shipments, 0 ≤ t.capacity) ∧
    s0 ∉ v.shipments

/-- Against loads satisfying `BigOk s0`, placing `s0` always takes the
`total == 0` early exit: no vehicle is feasible for it. -/
theorem place_big_none {alpha beta : ℕ} {s0 : Shipment} {loads : List Load}
    {pher : List (List ℚ)} {r : ℚ} (hb : BigOk s0 loads) :
    place_shipment alpha beta s0 loads pher r = none := by
  have hz : (probabilities alpha beta s0 loads pher).sum = 0 := by
    apply List.sum_eq_zero
    intro x hx
    simp only [probabilities, List.mem_map, List.mem_range] at hx
    obtain ⟨k, hk, rfl⟩ := hx
    have hmem : loads.getD k default ∈ loads := by
      rw [List.getD_eq_getElem _ _ hk]
      exact List.getElem_mem hk
    obtain ⟨hcap, hcaps, _⟩ := hb _ hmem
    have hused : 0 ≤ usedCapacity (loads.getD k default) := by
      apply List.sum_nonneg
      intro q hq
      simp only [List.mem_map] at hq
      obtain ⟨t, ht, rfl⟩ := hq
      exact hcaps t ht
    simp only [probOf]
    rw [if_neg (by linarith)]
  simp [place_shipment, hz]

theorem place_shipment_some_shape {alpha beta : ℕ} {s : Shipment} {loads : List Load}
    {pher : List (List ℚ)} {r : ℚ} {loads' : List Load}
    (h : place_shipment alpha beta s loads pher r = some loads') :
    ∃ k, loads' = appendAt loads k s := by
  by_cases ht : (probabilities alpha beta s loads pher).sum = 0
  · simp [place_shipment, ht] at h
  · simp only [place_shipment, if_neg ht, Option.some.injEq] at h
    exact ⟨_, h.symm⟩

theorem BigOk_place {alpha beta : ℕ} {s s0 : Shipment} {loads loads' : List Load}
    {pher : List (List ℚ)} {r : ℚ}
    (hb : BigOk s0 loads) (hs : 0 ≤ s.capacity)
    (h : place_shipment alpha beta s loads pher r = some loads') : BigOk s0 loads' := by
  have hne : s ≠ s0 := by
    rintro rfl
    rw [place_big_none hb] at h
    exact Option.noConfusion h
  obtain ⟨k, rfl⟩ := place_shipment_some_shape h
  intro v' hv'
  rcases mem_appendAt hv' with hm | ⟨hk, rfl⟩
  · exact hb _ hm
  · have hmem : loads.getD k default ∈ loads := by
      rw [List.getD_eq_getElem _ _ hk]
      exact List.getElem_mem hk
    obtain ⟨hcap, hcaps, hnot⟩ := hb _ hmem
    refine ⟨hcap, ?_, ?_⟩
    · intro t ht
      rcases List.mem_append.mp ht with ht1 | ht1
      · exact hcaps t ht1
      · rw [List.mem_singleton.mp ht1]; exact hs
    · intro hmem0
      rcases List.mem_append.mp hmem0 with ht1 | ht1
      · exact hnot ht1
      · exact hne (List.mem_singleton.mp ht1).symm

theorem constructAux_big {alpha beta : ℕ} {pher : List (List ℚ)} {rng : ℕ → ℚ}
    {s0 : Shipment} :
    ∀ (rest : List Shipment) (acc : List Load × List Shipment × ℕ),
      (∀ t ∈ rest, 0 ≤ t.capacity) → BigOk s0 acc.1 →
      BigOk s0 (constructAux alpha beta pher rng rest acc).1 ∧
        (constructAux alpha beta pher rng rest acc).2.1.count s0 =
          acc.2.1.count s0 + rest.count s0 := by
  intro rest
  induction rest with
  | nil => intro acc _ hb; exact ⟨hb, by simp [constructAux]⟩
  | cons s rest ih =>
    intro acc hpos hb
    obtain ⟨loads, skipped, idx⟩ := acc
    simp only [constructAux]
    cases hplace : place_shipment alpha beta s loads pher (rng idx) with
    | none =>
      obtain ⟨h1, h2⟩ := ih (loads, skipped ++ [s], idx)
        (fun t ht => hpos t (List.mem_cons_of_mem _ ht)) hb
      refine ⟨h1, ?_⟩
      rw [h2]
      simp only [List.count_append, List.count_cons, List.count_nil]
      omega
    | some loads' =>
      have hs : 0 ≤ s.capacity := hpos s (List.mem_cons_self _ _)
      have hne : s ≠ s0 := by
        rintro rfl
        rw [place_big_none hb] at hplace
        exact Option.noConfusion hplace
      obtain ⟨h1, h2⟩ := ih (loads', skipped, idx + 1)
        (fun t ht => hpos t (List.mem_cons_of_mem _ ht)) (BigOk_place hb hs hplace)
      refine ⟨h1, ?_⟩
      rw [h2]
      have : (s == s0) = false := by
        simpa using hne
      simp [List.count_cons, this]

theorem construct_solution_big {sd : List Shipment} {vd : List Vehicle}
    {alpha beta : ℕ} {pher : List (List ℚ)} {rng : ℕ → ℚ} {s0 : Shipment} (idx : ℕ)
    (hbig : ∀ v ∈ vd, v.capacity < s0.capacity)
    (hpos : ∀ t ∈ sd, 0 ≤ t.capacity) :
    (∀ v ∈ (construct_solution sd vd alpha beta pher rng idx).1, s0 ∉ v.shipments) ∧
      (construct_solution sd vd alpha beta pher rng idx).2.1.count s0 = sd.count s0 := by
  have hinit : BigOk s0 (vd.map (fun v => Load.mk v.id v.capacity [])) := by
    intro v hv
    simp only [List.mem_map] at hv
    obtain ⟨w, hw, rfl⟩ := hv
    exact ⟨hbig w hw, by simp, by simp⟩
  obtain ⟨h1, h2⟩ := constructAux_big sd
    (vd.map (fun v => Load.mk v.id v.capacity []), [], idx) hpos hinit
  exact ⟨fun v hv => (h1 v hv).2.2, by simpa using h2⟩

/-! ### Runs with an empty vehicle set -/

theorem constructAux_no_vehicles {alpha beta : ℕ} {pher : List (List ℚ)} {rng : ℕ → ℚ} :
    ∀ (rest : List Shipment) (sk : List Shipment) (idx : ℕ),
      constructAux alpha beta pher rng rest ([], sk, idx) = ([], sk ++ rest, idx) := by
  intro rest
  induction rest with
  | nil => intro sk idx; simp [constructAux]
  | cons s rest ih =>
    intro sk idx
    have hplace : place_shipment alpha beta s [] pher (rng idx) = none := by
      simp [place_shipment, probabilities]
    simp only [constructAux, hplace]
    rw [ih (sk ++ [s]) idx]
    simp

theorem construct_solution_no_vehicles {sd : List Shipment} {alpha beta : ℕ}
    {pher : List (List ℚ)} {rng : ℕ → ℚ} (idx : ℕ) :
    construct_solution sd [] alpha beta pher rng idx = ([], sd, idx) := by
  simp only [construct_solution, List.map_nil]
  rw [constructAux_no_vehicles]
  simp

theorem antLoop_no_vehicles_stable {sd : List Shipment} {alpha beta : ℕ}
    {pher : List (List ℚ)} {rng : ℕ → ℚ} :
    ∀ (n : ℕ) (idx : ℕ),
      antLoop sd [] alpha beta pher rng n (some ([], sd, 0), [], idx) =
        (some ([], sd, 0), [], idx) := by
  intro n
  induction n with
  | zero => intro idx; rfl
  | succ n ih =>
    intro idx
    simp only [antLoop, construct_solution_no_vehicles]
    rw [if_neg (by simp [betterThanIter, vehiclesUsed])]
    exact ih idx

theorem antLoop_no_vehicles {sd : List Shipment} {alpha beta : ℕ}
    {pher : List (List ℚ)} {rng : ℕ → ℚ} (n : ℕ) (idx : ℕ) :
    antLoop sd [] alpha beta pher rng (n + 1) (none, [], idx) =
      (some ([], sd, 0), [], idx) := by
  simp only [antLoop, construct_solution_no_vehicles]
  rw [if_pos (by simp [betterThanIter])]
  simp only [vehiclesUsed, List.countP_nil]
  exact antLoop_no_vehicles_stable n idx

theorem solveAux_fixpoint {p : UnoOptimo} {rng : ℕ → ℚ} {st : SolveState}
    (hfix : roundStep p rng st = st) :
    ∀ n : ℕ, solveAux p rng n st = st := by
  intro n
  induction n with
  | zero => exact solveAux_zero p rng st
  | succ n ih => rw [solveAux_succ, hfix]; exact ih

theorem roundStep_no_vehicles (p : UnoOptimo) (rng : ℕ → ℚ) (st : SolveState)
    (hv : p.vehicle_data = []) (ha : 1 ≤ p.num_ants) (hph : st.pheromones = []) :
    roundStep p rng st =
      { pheromones := [],
        best_solution :=
          if scoreLt (0, 0) st.best_evaluation then some [] else st.best_solution,
        best_evaluation :=
          if scoreLt (0, 0) st.best_evaluation then some (0, 0) else st.best_evaluation,
        skipped_shipments :=
          if scoreLt (0, 0) st.best_evaluation then p.shipment_data
          else st.skipped_shipments,
        rngIdx := st.rngIdx } := by
  obtain ⟨m, hm⟩ : ∃ m, p.num_ants = m + 1 := ⟨p.num_ants - 1, by omega⟩
  have hphase : antPhase p rng st = (some ([], p.shipment_data, 0), [], st.rngIdx) := by
    simp only [antPhase, hv, hm]
    exact antLoop_no_vehicles m st.rngIdx
  simp only [roundStep, hphase, hph]
  simp [evaluate_solution, iterationSkipped, updateMatrix]

/-! ### The pheromone update, cell by cell -/

theorem updateRow_getD {decay amt : ℚ} {gb : Bool} {row : List ℚ} {j : ℕ}
    (hj : j < row.length) :
    (updateRow decay amt gb row).getD j 0 =
      row.getD j 0 * (1 - decay) + if gb then amt else 0 := by
  unfold updateRow
  rw [List.getD_eq_getElem _ _ (by simpa using hj), List.getD_eq_getElem _ _ hj,
    List.getElem_map]

theorem updateMatrix_getD {decay amt : ℚ} {g : ℕ → Bool} :
    ∀ (M : List (List ℚ)) (off i : ℕ), i < M.length →
      (updateMatrix decay amt g off M).getD i [] =
        updateRow decay amt (g (off + i)) (M.getD i []) := by
  intro M
  induction M with
  | nil => intro off i hi; simp at hi
  | cons row rest ih =>
    intro off i hi
    cases i with
    | zero =>
      simp only [updateMatrix, List.getD_cons_zero, Nat.add_zero]
    | succ i =>
      simp only [updateMatrix, List.getD_cons_succ]
      rw [ih (off + 1) i (by simpa using Nat.lt_of_succ_lt_succ hi)]
      have h : off + 1 + i = off + (i + 1) := by omega
      rw [h]

/-! ### Claim theorems -/

/-- Claim C3: for every candidate produced at any stage — each ant's
construction (over any pheromone matrix and rng cursor) and the final
Best-So-Far Record — every vehicle load's used capacity stays within the
vehicle's total capacity, given nonnegative vehicle capacities and random
samples in `[0,1)` as `random.random()` produces. -/
theorem capacity_invariant (p : UnoOptimo) (rng : ℕ → ℚ)
    (hv : ∀ v ∈ p.vehicle_data, 0 ≤ v.capacity)
    (hr : ∀ k, 0 ≤ rng k ∧ rng k < 1) :
    (∀ (pher : List (List ℚ)) (idx : ℕ),
      ∀ v ∈ (construct_solution p.shipment_data p.vehicle_data p.alpha p.beta
        pher rng idx).1, usedCapacity v ≤ v.capacity) ∧
    (∀ L, (solve p rng).best_solution = some L →
      ∀ v ∈ L, usedCapacity v ≤ v.capacity) := by
  have hc : ∀ (pher : List (List ℚ)) (idx : ℕ),
      ∀ v ∈ (construct_solution p.shipment_data p.vehicle_data p.alpha p.beta
        pher rng idx).1, usedCapacity v ≤ v.capacity :=
    fun pher idx => construct_solution_loadsOk hv hr idx
  refine ⟨hc, ?_⟩
  have hstep : ∀ st, (∀ L, st.best_solution = some L →
      ∀ v ∈ L, usedCapacity v ≤ v.capacity) →
      ∀ L, (roundStep p rng st).best_solution = some L →
        ∀ v ∈ L, usedCapacity v ≤ v.capacity := by
    intro st hInv
    simp only [roundStep]
    by_cases himp : scoreLt (evaluate_solution (antPhase p rng st).2.1)
        st.best_evaluation
    · rw [if_pos himp]
      intro L hL
      rw [(Option.some.injEq _ _).mp hL.symm]
      exact antLoop_snd (fun loads => ∀ v ∈ loads, usedCapacity v ≤ v.capacity)
        (fun idx => hc st.pheromones idx) p.num_ants (none, [], st.rngIdx)
        (by intro v hv'; simp at hv')
    · rw [if_neg himp]
      exact hInv
  exact solveAux_inv _ hstep p.num_iterations (initState p)
    (by intro L hL; simp [initState] at hL)

/-- Claim C9: a shipment `s0` whose demand exceeds every vehicle's capacity
is never appended to any load in any construction (over any pheromone
matrix and rng cursor), every construction records every occurrence of it
in the skipped list, and the final record's loads never contain it — for
any ant and round counts. -/
theorem oversized_never_assigned (p : UnoOptimo) (rng : ℕ → ℚ) (s0 : Shipment)
    (hbig : ∀ v ∈ p.vehicle_data, v.capacity < s0.capacity)
    (hpos : ∀ t ∈ p.shipment_data, 0 ≤ t.capacity) :
    (∀ (pher : List (List ℚ)) (idx : ℕ),
      (∀ v ∈ (construct_solution p.shipment_data p.vehicle_data p.alpha p.beta
        pher rng idx).1, s0 ∉ v.shipments) ∧
      (construct_solution p.shipment_data p.vehicle_data p.alpha p.beta
        pher rng idx).2.1.count s0 = p.shipment_data.count s0) ∧
    (∀ L, (solve p rng).best_solution = some L → ∀ v ∈ L, s0 ∉ v.shipments) := by
  have hc : ∀ (pher : List (List ℚ)) (idx : ℕ),
      (∀ v ∈ (construct_solution p.shipment_data p.vehicle_data p.alpha p.beta
        pher rng idx).1, s0 ∉ v.shipments) ∧
      (construct_solution p.shipment_data p.vehicle_data p.alpha p.beta
        pher rng idx).2.1.count s0 = p.shipment_data.count s0 :=
    fun pher idx => construct_solution_big idx hbig hpos
  refine ⟨hc, ?_⟩
  have hstep : ∀ st, (∀ L, st.best_solution = some L →
      ∀ v ∈ L, s0 ∉ v.shipments) →
      ∀ L, (roundStep p rng st).best_solution = some L →
        ∀ v ∈ L, s0 ∉ v.shipments := by
    intro st hInv
    simp only [roundStep]
    by_cases himp : scoreLt (evaluate_solution (antPhase p rng st).2.1)
        st.best_evaluation
    · rw [if_pos himp]
      intro L hL
      rw [(Option.some.injEq _ _).mp hL.symm]
      exact antLoop_snd (fun loads => ∀ v ∈ loads, s0 ∉ v.shipments)
        (fun idx => (hc st.pheromones idx).1) p.num_ants (none, [], st.rngIdx)
        (by intro v hv'; simp at hv')
    · rw [if_neg himp]
      exact hInv
  exact solveAux_inv _ hstep p.num_iterations (initState p)
    (by intro L hL; simp [initState] at hL)

/-- Claim C4: in every round, each pheromone cell in range is multiplied by
`(1 - decay)` unconditionally, and the whole row additionally receives
`1 / vehiclesUsed(round best)` exactly when the round best exists and its
load at that row is non-empty; with no round best (zero ants) no row is
reinforced. -/
theorem pheromone_update_formula (p : UnoOptimo) (rng : ℕ → ℚ) (st : SolveState)
    (i j : ℕ) (hi : i < st.pheromones.length)
    (hj : j < (st.pheromones.getD i []).length) :
    (((roundStep p rng st).pheromones.getD i []).getD j 0 =
      ((st.pheromones.getD i []).getD j 0) * (1 - p.decay) +
        if rowReinforced (antPhase p rng st).1 i
        then reinforcementAmount (antPhase p rng st).1 else 0) ∧
    (∀ sol sk m, (antPhase p rng st).1 = some (sol, sk, m) →
      reinforcementAmount (antPhase p rng st).1 = 1 / (vehiclesUsed sol : ℚ) ∧
      (rowReinforced (antPhase p rng st).1 i ↔
        i < sol.length ∧ (sol.getD i default).shipments ≠ [])) ∧
    ((antPhase p rng st).1 = none → ¬ rowReinforced (antPhase p rng st).1 i) := by
  refine ⟨?_, ?_, ?_⟩
  · simp only [roundStep]
    rw [updateMatrix_getD st.pheromones 0 i hi, updateRow_getD hj]
    simp only [Nat.zero_add]
    by_cases hg : rowReinforced (antPhase p rng st).1 i
    · simp [hg]
    · simp [hg]
  · intro sol sk m hm
    have hms : m = vehiclesUsed sol := by
      have := antLoop_fst (fun _ _ => True) (fun _ => trivial) p.num_ants
        (none, [], st.rngIdx) (by intro sol sk m h; simp at h) sol sk m
        (by simpa [antPhase] using hm)
      exact this.1
    constructor
    · rw [hm, hms]
      rfl
    · rw [hm]
      simp [rowReinforced, nonEmptyLoad]
  · intro hn
    rw [hn]
    simp [rowReinforced]

/-- Claim C10: whenever the reinforcement guard of the pheromone update
holds for a row, the round best exists and its tracked vehicles-used count
is at least 1, so `1.0 / iteration_best_vehicles_used` is evaluated only
with a positive finite divisor — for any input, including zero shipments
and zero ants. -/
theorem reinforcement_division_guarded (p : UnoOptimo) (rng : ℕ → ℚ)
    (st : SolveState) (i : ℕ) (h : rowReinforced (antPhase p rng st).1 i) :
    ∃ sol sk m, (antPhase p rng st).1 = some (sol, sk, m) ∧
      m = vehiclesUsed sol ∧ 1 ≤ m ∧
      reinforcementAmount (antPhase p rng st).1 = 1 / (m : ℚ) := by
  cases hib : (antPhase p rng st).1 with
  | none => rw [hib] at h; simp [rowReinforced] at h
  | some t =>
    obtain ⟨sol, sk, m⟩ := t
    have hms : m = vehiclesUsed sol := by
      have := antLoop_fst (fun _ _ => True) (fun _ => trivial) p.num_ants
        (none, [], st.rngIdx) (by intro sol sk m h'; simp at h') sol sk m
        (by simpa [antPhase] using hib)
      exact this.1
    rw [hib] at h
    obtain ⟨hlt, hne⟩ := h
    have hmem : sol.getD i default ∈ sol := by
      rw [List.getD_eq_getElem _ _ hlt]
      exact List.getElem_mem hlt
    have hpos : 0 < vehiclesUsed sol :=
      List.countP_pos_iff.mpr ⟨_, hmem, hne⟩
    exact ⟨sol, sk, m, rfl, hms, by omega, rfl⟩

/-- Claim C6: `solve` is a pure function of the configuration and the
random stream: two runs with equal shipment data, vehicle data, tunable
parameters and pointwise-equal random streams produce identical final
states, Best-So-Far Record included. -/
theorem solve_deterministic (p₁ p₂ : UnoOptimo) (rng₁ rng₂ : ℕ → ℚ)
    (hp : p₁ = p₂) (hr : ∀ k, rng₁ k = rng₂ k) :
    solve p₁ rng₁ = solve p₂ rng₂ := by
  subst hp
  rw [show rng₁ = rng₂ from funext hr]

/-- Claim C7: in `place_shipment` the weight of a vehicle equals
`pheromones[i][i]^alpha * ((used + demand)/capacity)^beta` exactly when
the shipment fits and `0` otherwise, and a successful placement (with a
random sample in `[0,1)`) always appends to a vehicle the shipment fits
into: zero-weight vehicles are never drawn. -/
theorem desirability_spec (alpha beta : ℕ) (s : Shipment) (loads : List Load)
    (pher : List (List ℚ)) :
    (∀ i, i < loads.length →
      (probabilities alpha beta s loads pher).getD i 0 =
        if s.capacity ≤ (loads.getD i default).capacity -
            usedCapacity (loads.getD i default)
        then diag pher i ^ alpha *
          ((usedCapacity (loads.getD i default) + s.capacity) /
            (loads.getD i default).capacity) ^ beta
        else 0) ∧
    (∀ (r : ℚ) (loads' : List Load), 0 ≤ r → r < 1 →
      place_shipment alpha beta s loads pher r = some loads' →
      ∃ k, k < loads.length ∧
        s.capacity ≤ (loads.getD k default).capacity -
          usedCapacity (loads.getD k default) ∧
        loads' = appendAt loads k s) := by
  constructor
  · intro i hi
    rw [probabilities_getD hi]
    simp only [probOf]
  · intro r loads' h0 h1 h
    obtain ⟨k, hk, hne, rfl⟩ := place_shipment_some h0 h1 h
    exact ⟨k, hk, probOf_feasible hne, rfl⟩

/-- Claim C8: across the rounds of one `solve` run the Best-So-Far score
never regresses: after each round it is unchanged or strictly better under
the code's lexicographic comparison (`solve` itself being `num_iterations`
applications of `roundStep` from the initial state). -/
theorem best_never_regresses (p : UnoOptimo) (rng : ℕ → ℚ) (k : ℕ) :
    solve p rng = solveAux p rng p.num_iterations (initState p) ∧
    ((solveAux p rng (k + 1) (initState p)).best_evaluation =
        (solveAux p rng k (initState p)).best_evaluation ∨
      ∃ c, (solveAux p rng (k + 1) (initState p)).best_evaluation = some c ∧
        scoreLt c ((solveAux p rng k (initState p)).best_evaluation)) := by
  refine ⟨by simp only [solve], ?_⟩
  rw [solveAux_succ, solveAux_roundStep_comm]
  by_cases h : scoreLt
      (evaluate_solution (antPhase p rng (solveAux p rng k (initState p))).2.1)
      (solveAux p rng k (initState p)).best_evaluation
  · right
    exact ⟨evaluate_solution
        (antPhase p rng (solveAux p rng k (initState p))).2.1,
      by simp [roundStep, h], h⟩
  · left
    simp [roundStep, h]

/-- Claim C5 (amended): no validation happens at setup — the constructor
stores the configuration unchecked and `solve` runs its rounds with it
as-is, surfacing no error; with an empty vehicle set and any shipments
(and at least one ant and round) the run completes normally, reporting
every shipment as skipped. -/
theorem empty_vehicles_no_error (p : UnoOptimo) (rng : ℕ → ℚ)
    (hv : p.vehicle_data = []) (ha : 1 ≤ p.num_ants) (hn : 1 ≤ p.num_iterations) :
    solve p rng = ⟨[], some [], some (0, 0), p.shipment_data, 0⟩ := by
  obtain ⟨m, hm⟩ : ∃ m, p.num_iterations = m + 1 := ⟨p.num_iterations - 1, by omega⟩
  have hinit : initState p = ⟨[], none, none, [], 0⟩ := by
    simp [initState, hv, initialize_pheromones]
  have h1 : roundStep p rng (initState p) =
      ⟨[], some [], some (0, 0), p.shipment_data, 0⟩ := by
    rw [hinit, roundStep_no_vehicles p rng _ hv ha rfl]
    simp [scoreLt]
  have h2 : roundStep p rng ⟨[], some [], some (0, 0), p.shipment_data, 0⟩ =
      ⟨[], some [], some (0, 0), p.shipment_data, 0⟩ := by
    rw [roundStep_no_vehicles p rng _ hv ha rfl]
    simp [scoreLt]
  rw [solve, hm, solveAux_succ, h1, solveAux_fixpoint h2]

/-! ### Concrete runs exhibiting the round-best / last-ant mismatch -/

def s1 : Shipment := ⟨1, 5⟩

def s2 : Shipment := ⟨2, 10⟩

/-- Two ants, one round, vehicles of capacity 10 and 5.  With the random
stream below, ant 1 packs `s1` into vehicle 1 (then must skip `s2`), using
one vehicle; ant 2 packs `s1` into vehicle 2 and `s2` into vehicle 1,
using two vehicles. -/
def pBug : UnoOptimo := ⟨2, 1, 1 / 10, 1, 1, [s1, s2], [⟨1, 10⟩, ⟨2, 5⟩]⟩

def rngBug : ℕ → ℚ := fun k => if k = 1 then 1 / 2 else 0

set_option maxRecDepth 8000 in
/-- Claim C1 is violated by the code: in the run of `pBug` the tracked
round best is ant 1's one-vehicle assignment, yet the record stores ant
2's two-vehicle assignment (the raw `vehicle_loads` of the last ant) and
its score `(2, 0)` — not the round best and its score `(1, 5)`. -/
theorem last_ant_stored_not_round_best :
    (antPhase pBug rngBug (initState pBug)).1 =
      some ([⟨1, 10, [s1]⟩, ⟨2, 5, []⟩], [s2], 1) ∧
    (solve pBug rngBug).best_solution = some [⟨1, 10, [s2]⟩, ⟨2, 5, [s1]⟩] ∧
    (solve pBug rngBug).best_evaluation = some (2, 0) ∧
    evaluate_solution [⟨1, 10, [s1]⟩, ⟨2, 5, []⟩] = (1, 5) ∧
    ([⟨1, 10, [s2]⟩, ⟨2, 5, [s1]⟩] : List Load) ≠ [⟨1, 10, [s1]⟩, ⟨2, 5, []⟩] := by
  refine ⟨?_, ?_, ?_, ?_, ?_⟩ <;>
    norm_num [solve, solveAux, roundStep, antPhase, antLoop, construct_solution,
      constructAux, place_shipment, probabilities, probOf, diag, usedCapacity,
      cumWeights, bisectIdx, chooseIndex, appendAt, evaluate_solution, nonEmptyLoad,
      vehiclesUsed, betterThanIter, iterationSkipped, scoreLt, reinforcementAmount,
      rowReinforced, updateRow, updateMatrix, initialize_pheromones, initState,
      rngBug, pBug, s1, s2, List.range_succ, List.replicate]

set_option maxRecDepth 8000 in
/-- Claim C2 is violated by the code: in the final record of the `pBug`
run, shipment `s2` sits in vehicle 1's load (the stored last-ant
assignment) AND in the skipped list (taken from the round-best candidate):
the loads and the skipped list of the record come from different
candidates and do not partition the input. -/
theorem record_partition_violated :
    (solve pBug rngBug).best_solution = some [⟨1, 10, [s2]⟩, ⟨2, 5, [s1]⟩] ∧
    (solve pBug rngBug).skipped_shipments = [s2] ∧
    (∃ L, (solve pBug rngBug).best_solution = some L ∧ ∃ v ∈ L, s2 ∈ v.shipments) ∧
    s2 ∈ (solve pBug rngBug).skipped_shipments := by
  have h : solve pBug rngBug =
      ⟨[[19 / 10, 19 / 10], [9 / 10, 9 / 10]],
       some [⟨1, 10, [s2]⟩, ⟨2, 5, [s1]⟩], some (2, 0), [s2], 3⟩ := by
    norm_num [solve, solveAux, roundStep, antPhase, antLoop, construct_solution,
      constructAux, place_shipment, probabilities, probOf, diag, usedCapacity,
      cumWeights, bisectIdx, chooseIndex, appendAt, evaluate_solution, nonEmptyLoad,
      vehiclesUsed, betterThanIter, iterationSkipped, scoreLt, reinforcementAmount,
      rowReinforced, updateRow, updateMatrix, initialize_pheromones, initState,
      rngBug, pBug, s1, s2, List.range_succ, List.replicate]
  refine ⟨by rw [h], by rw [h], ?_, by rw [h]; simp⟩
  refine ⟨[⟨1, 10, [s2]⟩, ⟨2, 5, [s1]⟩], by rw [h], ⟨1, 10, [s2]⟩, by simp, by simp⟩

/-! ### Concrete run showing that no input validation exists -/

def rng0 : ℕ → ℚ := fun _ => 0

/-- A configuration the spec calls invalid: decay `3/2` lies outside
`[0,1)`. -/
def pNoCheck : UnoOptimo := ⟨1, 1, 3 / 2, 1, 1, [], [⟨1, 10⟩]⟩

/-- Claim C5 is violated by the code: nothing is validated.  With decay
`3/2` (outside `[0,1)`) the run is not rejected; a full search round
executes, applies the out-of-range decay to the pheromone matrix (leaving
the negative weight `-1/2`) and installs a Best-So-Far Record. -/
theorem no_validation_counterexample :
    (pNoCheck.decay < 0 ∨ 1 ≤ pNoCheck.decay) ∧
    solve pNoCheck rng0 = ⟨[[-(1 / 2)]], some [⟨1, 10, []⟩], some (0, 0), [], 0⟩ := by
  constructor
  · right
    norm_num [pNoCheck]
  · norm_num [solve, solveAux, roundStep, antPhase, antLoop, construct_solution,
      constructAux, place_shipment, probabilities, probOf, diag, usedCapacity,
      cumWeights, bisectIdx, chooseIndex, appendAt, evaluate_solution, nonEmptyLoad,
      vehiclesUsed, betterThanIter, iterationSkipped, scoreLt, reinforcementAmount,
      rowReinforced, updateRow, updateMatrix, initialize_pheromones, initState,
      rng0, pNoCheck, List.range_succ, List.replicate]

/-! ### Concrete instantiations of the hypothesis-bearing theorems -/

/-- One ant, one round, one shipment of demand 5, one vehicle of
capacity 10. -/
def pSmall : UnoOptimo := ⟨1, 1, 1 / 10, 1, 1, [⟨1, 5⟩], [⟨1, 10⟩]⟩

/-- Witness for `capacity_invariant` at `pSmall` with the constant-zero
random stream. -/
theorem capacity_invariant_witness :
    ((∀ v ∈ pSmall.vehicle_data, 0 ≤ v.capacity) ∧
      (∀ k, 0 ≤ rng0 k ∧ rng0 k < 1)) ∧
    ((∀ (pher : List (List ℚ)) (idx : ℕ),
        ∀ v ∈ (construct_solution pSmall.shipment_data pSmall.vehicle_data
          pSmall.alpha pSmall.beta pher rng0 idx).1, usedCapacity v ≤ v.capacity) ∧
      (∀ L, (solve pSmall rng0).best_solution = some L →
        ∀ v ∈ L, usedCapacity v ≤ v.capacity)) := by
  have h1 : ∀ v ∈ pSmall.vehicle_data, 0 ≤ v.capacity := by
    intro v hv
    simp only [pSmall, List.mem_singleton] at hv
    rw [hv]
    norm_num
  have h2 : ∀ k, 0 ≤ rng0 k ∧ rng0 k < 1 := by
    intro k
    constructor <;> norm_num [rng0]
  exact ⟨⟨h1, h2⟩, capacity_invariant pSmall rng0 h1 h2⟩

/-- Witness for `pheromone_update_formula` at `pSmall`, row 0, column 0 of
the initial matrix. -/
theorem pheromone_update_formula_witness :
    ((0 < (initState pSmall).pheromones.length) ∧
      (0 < ((initState pSmall).pheromones.getD 0 []).length)) ∧
    ((((roundStep pSmall rng0 (initState pSmall)).pheromones.getD 0 []).getD 0 0 =
        (((initState pSmall).pheromones.getD 0 []).getD 0 0) * (1 - pSmall.decay) +
          if rowReinforced (antPhase pSmall rng0 (initState pSmall)).1 0
          then reinforcementAmount (antPhase pSmall rng0 (initState pSmall)).1 else 0) ∧
      (∀ sol sk m, (antPhase pSmall rng0 (initState pSmall)).1 = some (sol, sk, m) →
        reinforcementAmount (antPhase pSmall rng0 (initState pSmall)).1 =
          1 / (vehiclesUsed sol : ℚ) ∧
        (rowReinforced (antPhase pSmall rng0 (initState pSmall)).1 0 ↔
          0 < sol.length ∧ (sol.getD 0 default).shipments ≠ [])) ∧
      ((antPhase pSmall rng0 (initState pSmall)).1 = none →
        ¬ rowReinforced (antPhase pSmall rng0 (initState pSmall)).1 0)) := by
  have h1 : 0 < (initState pSmall).pheromones.length := by
    norm_num [initState, initialize_pheromones, pSmall]
  have h2 : 0 < ((initState pSmall).pheromones.getD 0 []).length := by
    norm_num [initState, initialize_pheromones, pSmall]
  exact ⟨⟨h1, h2⟩, pheromone_update_formula pSmall rng0 (initState pSmall) 0 0 h1 h2⟩

/-- An empty vehicle set with a non-empty shipment set. -/
def pNoVehicles : UnoOptimo := ⟨1, 1, 1 / 10, 1, 1, [⟨1, 5⟩], []⟩

/-- Witness for `empty_vehicles_no_error` at `pNoVehicles`. -/
theorem empty_vehicles_no_error_witness :
    (pNoVehicles.vehicle_data = [] ∧ 1 ≤ pNoVehicles.num_ants ∧
      1 ≤ pNoVehicles.num_iterations) ∧
    solve pNoVehicles rng0 =
      ⟨[], some [], some (0, 0), pNoVehicles.shipment_data, 0⟩ :=
  ⟨⟨rfl, le_refl 1, le_refl 1⟩,
    empty_vehicles_no_error pNoVehicles rng0 rfl (le_refl 1) (le_refl 1)⟩

/-- Witness for `solve_deterministic`: two runs of `pSmall` with the same
stream coincide. -/
theorem solve_deterministic_witness :
    (pSmall = pSmall ∧ ∀ k, rng0 k = rng0 k) ∧
    solve pSmall rng0 = solve pSmall rng0 :=
  ⟨⟨rfl, fun _ => rfl⟩, solve_deterministic pSmall pSmall rng0 rng0 rfl fun _ => rfl⟩

def sW7 : Shipment := ⟨1, 5⟩

def loadsW7 : List Load := [⟨1, 10, []⟩]

def pherW7 : List (List ℚ) := [[1]]

/-- Witness for `desirability_spec`: one empty vehicle of capacity 10, a
shipment of demand 5, sample 0. -/
theorem desirability_spec_witness :
    (0 < loadsW7.length ∧ 0 ≤ (0 : ℚ) ∧ (0 : ℚ) < 1 ∧
      place_shipment 1 1 sW7 loadsW7 pherW7 0 = some [⟨1, 10, [sW7]⟩]) ∧
    ((probabilities 1 1 sW7 loadsW7 pherW7).getD 0 0 =
      if sW7.capacity ≤ (loadsW7.getD 0 default).capacity -
          usedCapacity (loadsW7.getD 0 default)
      then diag pherW7 0 ^ 1 *
        ((usedCapacity (loadsW7.getD 0 default) + sW7.capacity) /
          (loadsW7.getD 0 default).capacity) ^ 1
      else 0) ∧
    (∃ k, k < loadsW7.length ∧
      sW7.capacity ≤ (loadsW7.getD k default).capacity -
        usedCapacity (loadsW7.getD k default) ∧
      ([⟨1, 10, [sW7]⟩] : List Load) = appendAt loadsW7 k sW7) := by
  have hlen : 0 < loadsW7.length := by norm_num [loadsW7]
  have hp : place_shipment 1 1 sW7 loadsW7 pherW7 0 = some [⟨1, 10, [sW7]⟩] := by
    norm_num [place_shipment, probabilities, probOf, diag, usedCapacity, cumWeights,
      bisectIdx, chooseIndex, appendAt, sW7, loadsW7, pherW7, List.range_succ]
  exact ⟨⟨hlen, le_refl 0, by norm_num, hp⟩,
    (desirability_spec 1 1 sW7 loadsW7 pherW7).1 0 hlen,
    (desirability_spec 1 1 sW7 loadsW7 pherW7).2 0 [⟨1, 10, [sW7]⟩]
      (le_refl 0) (by norm_num) hp⟩

/-- A shipment of demand 50 against a single vehicle of capacity 10. -/
def sBig : Shipment := ⟨1, 50⟩

def pBig9 : UnoOptimo := ⟨1, 1, 1 / 10, 1, 1, [sBig], [⟨1, 10⟩]⟩

/-- Witness for `oversized_never_assigned` at `pBig9` and `sBig`. -/
theorem oversized_never_assigned_witness :
    ((∀ v ∈ pBig9.vehicle_data, v.capacity < sBig.capacity) ∧
      (∀ t ∈ pBig9.shipment_data, 0 ≤ t.capacity)) ∧
    ((∀ (pher : List (List ℚ)) (idx : ℕ),
        (∀ v ∈ (construct_solution pBig9.shipment_data pBig9.vehicle_data
          pBig9.alpha pBig9.beta pher rng0 idx).1, sBig ∉ v.shipments) ∧
        (construct_solution pBig9.shipment_data pBig9.vehicle_data
          pBig9.alpha pBig9.beta pher rng0 idx).2.1.count sBig =
            pBig9.shipment_data.count sBig) ∧
      (∀ L, (solve pBig9 rng0).best_solution = some L →
        ∀ v ∈ L, sBig ∉ v.shipments)) := by
  have h1 : ∀ v ∈ pBig9.vehicle_data, v.capacity < sBig.capacity := by
    intro v hv
    simp only [pBig9, List.mem_singleton] at hv
    rw [hv]
    norm_num [sBig]
  have h2 : ∀ t ∈ pBig9.shipment_data, 0 ≤ t.capacity := by
    intro t ht
    simp only [pBig9, List.mem_singleton] at ht
    rw [ht]
    norm_num [sBig]
  exact ⟨⟨h1, h2⟩, oversized_never_assigned pBig9 rng0 sBig h1 h2⟩

/-- Witness for `reinforcement_division_guarded`: in the `pSmall` round the
guard of row 0 holds (the single ant packed the shipment), and the theorem
yields the round best with count 1. -/
theorem reinforcement_division_guarded_witness :
    rowReinforced (antPhase pSmall rng0 (initState pSmall)).1 0 ∧
    (∃ sol sk m, (antPhase pSmall rng0 (initState pSmall)).1 = some (sol, sk, m) ∧
      m = vehiclesUsed sol ∧ 1 ≤ m ∧
      reinforcementAmount (antPhase pSmall rng0 (initState pSmall)).1 = 1 / (m : ℚ)) := by
  have hphase : (antPhase pSmall rng0 (initState pSmall)).1 =
      some ([⟨1, 10, [⟨1, 5⟩]⟩], [], 1) := by
    norm_num [antPhase, antLoop, construct_solution, constructAux, place_shipment,
      probabilities, probOf, diag, usedCapacity, cumWeights, bisectIdx, chooseIndex,
      appendAt, nonEmptyLoad, vehiclesUsed, betterThanIter, initState,
      initialize_pheromones, rng0, pSmall, List.range_succ, List.replicate]
  have hg : rowReinforced (antPhase pSmall rng0 (initState pSmall)).1 0 := by
    rw [hphase]
    exact ⟨by norm_num, by norm_num [nonEmptyLoad]⟩
  exact ⟨hg, reinforcement_division_guarded pSmall rng0 (initState pSmall) 0 hg⟩

end Aco
